import Mathlib

/-!
Shallow embedding of `resolve2edl.py`: a batch pipeline that normalizes a
DaVinci Resolve media-pool table and an edit-index table, left-joins them on
the clip name, partitions by the presence of a `Source` value, derives
`Duration` and `Track` columns, sorts by `Record In`, and exports the result.

Tabular values are modelled as lists of structures.  A pandas `NaN` cell in a
string column is modelled as `Option.none`; `pd.read_csv` turns empty CSV
fields into `NaN`, so `none` stands for a null-or-empty cell.
-/

namespace ResolveEDL

/-- Configuration constant `EDIT_COLUMNS_TO_KEEP` (source lines 18-25). -/
def EDIT_COLUMNS_TO_KEEP : List String :=
  ["Name", "Source In", "Source Out", "Record In", "Record Out", "V"]

/-- Configuration constant `EDIT_ROWS_TO_IGNORE` (source lines 27-35). -/
def EDIT_ROWS_TO_IGNORE : List String :=
  ["Fusion Title", "Cross Fade 0 dB", "Cross Dissolve", "Audio Process Stream",
   "Adjustment Clip", "Dip To Color Dissolve", "Solid Color"]

/-- Configuration constant `EDIT_TRACKS_TO_EXCLUDE` (source lines 38-47). -/
def EDIT_TRACKS_TO_EXCLUDE : List String :=
  ["V5", "V6", "V7", "V8", "V9", "V10", "V11", "V12"]

/-- Configuration constant `MEDIA_COLUMNS_TO_KEEP` (source lines 49-56). -/
def MEDIA_COLUMNS_TO_KEEP : List String :=
  ["File Name", "Take", "Camera #", "Scene", "Comments", "Keywords"]

/-- Configuration constant `MEDIA_SOURCES_TO_IGNORE` (source lines 58-64). -/
def MEDIA_SOURCES_TO_IGNORE : List String :=
  ["Sound FX Tal", "Tournage", "Musique Bibliothèque", "Musique Tal",
   "Musique sous droits"]

/-- A row of the edit-index table after projection onto
`EDIT_COLUMNS_TO_KEEP`.  `name` is `none` for a null/empty `Name` cell. -/
structure EditRow where
  name : Option String
  sourceIn : String
  sourceOut : String
  recordIn : String
  recordOut : String
  v : String
deriving DecidableEq

/-- A row of the media-pool table after projection onto
`MEDIA_COLUMNS_TO_KEEP`.  Every column except `File Name` is nullable. -/
structure MediaRow where
  fileName : String
  take : Option String
  camera : Option String
  scene : Option String
  comments : Option String
  keywords : Option String
deriving DecidableEq

/-- A normalized media row, after `prepare_media`: columns renamed
(`File Name → Name`, `Take → Source`, `Camera # → Fonds`,
`Scene → Reference`), the extension split off the file name. -/
structure MediaN where
  name : String
  source : Option String
  fonds : Option String
  reference : Option String
  comments : Option String
  keywords : Option String
  extension : String
deriving DecidableEq

/-- `leadsChars p l`: `p` occurs at the start of `l`
(character-level, case-sensitive). -/
def leadsChars : List Char → List Char → Bool
  | [], _ => true
  | _ :: _, [] => false
  | a :: as, b :: bs => a = b && leadsChars as bs

/-- `subChars p l`: `p` occurs contiguously somewhere in `l`. -/
def subChars (p : List Char) : List Char → Bool
  | [] => leadsChars p []
  | b :: bs => leadsChars p (b :: bs) || subChars p bs

/-- `containsStr s pat`: `pat` is a (case-sensitive) substring of `s`;
models `s.str.contains(pat)` for a pattern with no regex metacharacters. -/
def containsStr (s pat : String) : Bool :=
  subChars pat.data s.data

/-- The `Name`-based marker test of `prepare_edit` (source lines 140-141):
`e['Name'].str.contains('|'.join(EDIT_ROWS_TO_IGNORE), na=False)`.
The joined pattern is a regex alternation of the seven literal entries
(none contains a metacharacter), with `na=False` sending null names to
`false`. -/
def nameMatchesIgnored (name : Option String) : Bool :=
  match name with
  | none => false
  | some n => EDIT_ROWS_TO_IGNORE.any (fun pat => containsStr n pat)

/-- `Resolve.prepare_edit` (source lines 130-146): keep the allow-listed
columns (the `EditRow` projection), drop rows with a null `Name`, drop rows
whose `Name` matches the marker list, drop rows whose track `V` is in
`EDIT_TRACKS_TO_EXCLUDE`. -/
def prepare_edit (rows : List EditRow) : List EditRow :=
  ((rows.filter (fun r => r.name.isSome)).filter
      (fun r => ! nameMatchesIgnored r.name)).filter
    (fun r => ! EDIT_TRACKS_TO_EXCLUDE.contains r.v)

/-- `os.path.splitext` (posix) on a file-name string: split at the last
extension.  The extension starts at the last `'.'`, provided that dot lies
after the last path separator and the part of the final path component
before it is not entirely dots. -/
def splitext (p : String) : String × String :=
  match p.data.reverse.dropWhile (fun c => c ≠ '.') with
  | [] => (p, "")
  | _ :: baseRev =>
    if (p.data.reverse.takeWhile (fun c => c ≠ '.')).contains '/' then (p, "")
    else if (baseRev.takeWhile (fun c => c ≠ '/')).all (fun c => c = '.') then
      (p, "")
    else
      (String.mk baseRev.reverse,
       String.mk ('.' ::
         (p.data.reverse.takeWhile (fun c => c ≠ '.')).reverse))

/-- The `Extension` column of `prepare_media` (source lines 165-167):
`os.path.splitext(x)[1]` with every `'.'` removed
(`.str.replace('.', '', regex=False)`). -/
def mediaExtension (fileName : String) : String :=
  String.mk ((splitext fileName).2.data.filter (fun c => c ≠ '.'))

/-- The `Name` column of `prepare_media` (source lines 168-169):
`os.path.splitext(x)[0]`. -/
def mediaName (fileName : String) : String :=
  (splitext fileName).1

/-- `Resolve.prepare_media` (source lines 148-171): keep the allow-listed
columns, rename them (`File Name → Name`, `Take → Source`,
`Scene → Reference`, `Camera # → Fonds`), derive `Extension` from the file
name and strip the extension from `Name`. -/
def prepare_media (rows : List MediaRow) : List MediaN :=
  rows.map (fun m =>
    { name := mediaName m.fileName
      source := m.take
      fonds := m.camera
      reference := m.scene
      comments := m.comments
      keywords := m.keywords
      extension := mediaExtension m.fileName })

/-- Numeric value of a decimal digit character. -/
def digitVal (c : Char) : Nat := c.toNat - 48

/-- Modelled from the spec: the external `timecode` library's parsing of a
`HH:MM:SS:FF` string into an absolute frame count at frame rate `fps`
(spec §3 "Timecode: a frame-accurate time representation HH:MM:SS:FF at a
fixed frame rate").  A string not of that shape is malformed and yields
`none`. -/
def parseTCList (fps : Nat) (l : List Char) : Option Nat :=
  match l with
  | [h1, h2, c1, m1, m2, c2, s1, s2, c3, f1, f2] =>
    if c1 = ':' ∧ c2 = ':' ∧ c3 = ':' ∧ h1.isDigit ∧ h2.isDigit ∧ m1.isDigit ∧
        m2.isDigit ∧ s1.isDigit ∧ s2.isDigit ∧ f1.isDigit ∧ f2.isDigit then
      some ((((10 * digitVal h1 + digitVal h2) * 60 +
              (10 * digitVal m1 + digitVal m2)) * 60 +
              (10 * digitVal s1 + digitVal s2)) * fps +
            (10 * digitVal f1 + digitVal f2))
    else none
  | _ => none

/-- The string-level timecode parser: `parseTCList` on the characters. -/
def parseTC (fps : Nat) (s : String) : Option Nat :=
  parseTCList fps s.data

/-- `Resolve.get_tc_delta` (source lines 244-256): subtract the two record
timecodes of a row; on failure print a warning, return `0` and raise the
run-level `flag_duration_issue`.  The subtraction itself is modelled from
the spec (the `timecode` library is an external collaborator): it is the
frame-count difference, invalid when either string is malformed or
`record_out` precedes `record_in`.  The second component tells whether the
fallback branch ran (it sets `flag_duration_issue`). -/
def get_tc_delta (fps : Nat) (recordIn recordOut : String) : Nat × Bool :=
  match parseTC fps recordIn, parseTC fps recordOut with
  | some tcIn, some tcOut =>
    if tcIn ≤ tcOut then (tcOut - tcIn, false) else (0, true)
  | _, _ => (0, true)

/-- A row of the merged dataframe produced by
`pd.merge(edit, media, on='Name', how='left')` (source line 175).  For an
edit row with no matching media row, the media-derived columns are `NaN`,
hence `Option` types; `extension` is likewise `none` exactly on unmatched
rows. -/
structure MergedRow where
  name : Option String
  sourceIn : String
  sourceOut : String
  recordIn : String
  recordOut : String
  v : String
  source : Option String
  fonds : Option String
  reference : Option String
  comments : Option String
  keywords : Option String
  extension : Option String
deriving DecidableEq

/-- The merged row for an edit row paired with a matching media row. -/
def mkMatched (e : EditRow) (m : MediaN) : MergedRow :=
  { name := e.name, sourceIn := e.sourceIn, sourceOut := e.sourceOut
    recordIn := e.recordIn, recordOut := e.recordOut, v := e.v
    source := m.source, fonds := m.fonds, reference := m.reference
    comments := m.comments, keywords := m.keywords
    extension := some m.extension }

/-- The merged row for an edit row with no matching media row: every
media-derived column is null. -/
def mkUnmatched (e : EditRow) : MergedRow :=
  { name := e.name, sourceIn := e.sourceIn, sourceOut := e.sourceOut
    recordIn := e.recordIn, recordOut := e.recordOut, v := e.v
    source := none, fonds := none, reference := none
    comments := none, keywords := none, extension := none }

/-- The media rows matching one edit row under the join key: exact
case-sensitive equality of the `Name` columns. -/
def joinMatches (media : List MediaN) (e : EditRow) : List MediaN :=
  media.filter (fun m => e.name = some m.name)

/-- `pd.merge(self.edit, self.media, on='Name', how='left')` (source line
175): relational left outer join on `Name`.  Left row order is preserved;
each edit row fans out to one merged row per matching media row, or to a
single all-null-media row when nothing matches. -/
def leftJoin (edit : List EditRow) (media : List MediaN) : List MergedRow :=
  edit.flatMap (fun e =>
    match joinMatches media e with
    | [] => [mkUnmatched e]
    | ms => ms.map (fun m => mkMatched e m))

/-- The post-join filter `edl[~edl['Source'].isin(MEDIA_SOURCES_TO_IGNORE)]`
(source line 178).  A `NaN` source is not a member of the list, so null
sources survive this filter. -/
def srcIgnored (r : MergedRow) : Bool :=
  match r.source with
  | some s => MEDIA_SOURCES_TO_IGNORE.contains s
  | none => false

/-- The merged table after the source-ignore-list filter (source line 178). -/
def edlFiltered (edit : List EditRow) (media : List MediaN) : List MergedRow :=
  (leftJoin edit media).filter (fun r => ! srcIgnored r)

/-- `self.edl_no_source = edl[edl['Source'].isnull()]` (source line 182). -/
def edlNoSource (edit : List EditRow) (media : List MediaN) : List MergedRow :=
  (edlFiltered edit media).filter (fun r => r.source.isNone)

/-- The primary merged table after the partition (source lines 183-186):
the null-source rows are dropped only when at least one exists. -/
def edlPrimary (edit : List EditRow) (media : List MediaN) : List MergedRow :=
  if (edlNoSource edit media).isEmpty then edlFiltered edit media
  else (edlFiltered edit media).filter (fun r => r.source.isSome)

/-- The run-level `flag_duration_issue` after the `Duration` column is
computed over the primary table (source lines 191-192 with the flag
mutation inside `get_tc_delta`). -/
def durationFlag (fps : Nat) (rows : List MergedRow) : Bool :=
  rows.foldl (fun fl r => fl || (get_tc_delta fps r.recordIn r.recordOut).2)
    false

/-- `edl['V'].apply(lambda x: 'AUDIO' if x[0] == 'A' else '')` for one cell
(source line 198).  `x[0]` on an empty string raises `IndexError`, hence
the `Option`: `none` is the error branch. -/
def trackKind (x : String) : Option String :=
  match x.data with
  | [] => none
  | c :: _ => some (if c = 'A' then "AUDIO" else "")

/-- A primary row enriched with the derived `Duration` and `Track`
columns (source lines 191-198). -/
structure EdlRow where
  row : MergedRow
  duration : Nat
  track : String
deriving DecidableEq

/-- Row-wise derivation of `Duration` and `Track` (source lines 191-198);
fails (run aborts) exactly when the `Track` derivation fails. -/
def enrich (fps : Nat) (r : MergedRow) : Option EdlRow :=
  (trackKind r.v).map
    (fun t => ⟨r, (get_tc_delta fps r.recordIn r.recordOut).1, t⟩)

/-- The comparison used to model `edl.sort_values('Record In')` (source
line 205): ascending lexicographic order on the `Record In` strings. -/
def recordInLE (a b : EdlRow) : Prop :=
  a.row.recordIn ≤ b.row.recordIn

/-- Structural boolean lexicographic comparison on character lists; it
decides the string order by a computation the kernel can evaluate. -/
def leStr : List Char → List Char → Bool
  | [], _ => true
  | _ :: _, [] => false
  | a :: as, b :: bs =>
    if a < b then true else if b < a then false else leStr as bs

instance : DecidableRel recordInLE := fun a b =>
  decidable_of_iff
    (leStr a.row.recordIn.toList b.row.recordIn.toList = true) (by
    have key : ∀ l m : List Char, leStr l m = true ↔ ¬ List.Lex (· < ·) m l := by
      intro l
      induction l with
      | nil =>
        intro m
        exact iff_of_true rfl (List.Lex.not_nil_right _ _)
      | cons x xs ih =>
        intro m
        cases m with
        | nil => exact iff_of_false (by simp [leStr]) (fun hn => hn .nil)
        | cons y ys =>
          by_cases h1 : x < y
          · refine iff_of_true (by simp [leStr, h1]) ?_
            intro hlex
            cases hlex with
            | cons h => exact absurd h1 (lt_irrefl _)
            | rel h => exact absurd h1 (lt_asymm h)
          · by_cases h2 : y < x
            · refine iff_of_false (by simp [leStr, h1, h2]) ?_
              intro hn
              exact hn (List.Lex.rel h2)
            · have hxy : x = y := le_antisymm (not_lt.mp h2) (not_lt.mp h1)
              subst hxy
              simp only [leStr, if_neg h1, if_neg h2]
              rw [ih ys]
              exact (not_congr List.Lex.cons_iff).symm
    refine (key _ _).trans ?_
    rw [recordInLE, ← not_lt]
    apply not_congr
    rw [String.lt_iff_toList_lt]
    exact Iff.rfl)

/-- The exported primary table: the primary partition enriched with
`Duration` and `Track` and sorted ascending by `Record In` (source lines
188-207); `none` when the `Track` derivation aborts the run. -/
def finalEDL (fps : Nat) (edit : List EditRow) (media : List MediaN) :
    Option (List EdlRow) :=
  ((edlPrimary edit media).mapM (enrich fps)).map
    (List.insertionSort recordInLE)

instance : IsTotal EdlRow recordInLE :=
  ⟨fun a b => le_total a.row.recordIn b.row.recordIn⟩

instance : IsTrans EdlRow recordInLE :=
  ⟨fun _ _ _ hab hbc => le_trans hab hbc⟩

/-- `subtractable fps ri ro`: the timecode pair of a row can be subtracted —
both strings parse and `record_out` does not precede `record_in`.  This is
exactly the complement of the fallback branch of `get_tc_delta`. -/
def subtractable (fps : Nat) (recordIn recordOut : String) : Bool :=
  match parseTC fps recordIn, parseTC fps recordOut with
  | some tcIn, some tcOut => tcIn ≤ tcOut
  | _, _ => false

/-- Column tracking: the rename map of `prepare_media` (source lines
155-160). -/
def renameMediaColumn (c : String) : String :=
  if c = "File Name" then "Name"
  else if c = "Take" then "Source"
  else if c = "Scene" then "Reference"
  else if c = "Camera #" then "Fonds"
  else c

/-- The columns of the normalized media table, in dataframe order: the kept
columns renamed in place, with `Extension` appended (source lines 152-167). -/
def mediaColumns : List String :=
  MEDIA_COLUMNS_TO_KEEP.map renameMediaColumn ++ ["Extension"]

/-- Column order of `pd.merge(left, right, on='Name', how='left')`: the key
column stays in its left position; the remaining right columns follow in
right-table order. -/
def mergeColumns (left right : List String) : List String :=
  left ++ right.filter (fun c => c ≠ "Name")

/-- The columns of `self.edl_no_source` (source line 182): the partition is
captured straight after the merge and the source filter, before `Duration`
and `Track` are derived. -/
def noSourceColumns : List String :=
  mergeColumns EDIT_COLUMNS_TO_KEEP mediaColumns

/-- The columns of the exported primary table: the merge columns followed by
the derived `Duration` (source line 191) and `Track` (source line 198). -/
def edlColumns : List String :=
  noSourceColumns ++ ["Duration", "Track"]

/-- `exist_clips_with_null_source` (source lines 183-184), consumed by
`write_file` (source line 215): the no-source file is written iff the
no-source partition is non-empty. -/
def noSourceFileWritten (edit : List EditRow) (media : List MediaN) : Bool :=
  ! (edlNoSource edit media).isEmpty

/-- The decimal digit character of `n` (for `n < 10`). -/
def dChar (n : Nat) : Char := Char.ofNat (48 + n)

/-- The fixed-width zero-padded rendering `HH:MM:SS:FF` of a timecode. -/
def tcRender (hh mm ss ff : Nat) : String :=
  String.mk [dChar (hh / 10), dChar (hh % 10), ':',
             dChar (mm / 10), dChar (mm % 10), ':',
             dChar (ss / 10), dChar (ss % 10), ':',
             dChar (ff / 10), dChar (ff % 10)]

/-- A well-formed fixed-width zero-padded timecode at frame rate `fps`:
the rendering of in-range hours, minutes, seconds and frames. -/
def wfTC (fps : Nat) (s : String) : Prop :=
  ∃ hh mm ss ff : Nat,
    hh < 100 ∧ mm < 60 ∧ ss < 60 ∧ ff < fps ∧ ff < 100 ∧
    s = tcRender hh mm ss ff

/-- The parsed frame count of a timecode string (`0` when malformed). -/
def framesOf (fps : Nat) (s : String) : Nat :=
  (parseTC fps s).getD 0

/-! Concrete fixture rows used by the witness and counterexample theorems. -/

/-- Edit event `Clip_01` on track `V1` (the spec's worked scenario). -/
def editA : EditRow :=
  { name := some "Clip_01", sourceIn := "00:00:00:00",
    sourceOut := "00:00:02:00", recordIn := "01:00:00:00",
    recordOut := "01:00:02:00", v := "V1" }

/-- Edit event `Clip_02`, matched by no media row. -/
def editB : EditRow :=
  { name := some "Clip_02", sourceIn := "00:00:00:00",
    sourceOut := "00:00:01:00", recordIn := "01:00:05:00",
    recordOut := "01:00:06:00", v := "A1" }

/-- Media-pool row `Clip_01.mov`, take 3, scene 12 (the spec's scenario). -/
def mediaA : MediaRow :=
  { fileName := "Clip_01.mov", take := some "3", camera := none,
    scene := some "12", comments := none, keywords := none }

/-- A normalized media row for `Clip_01` whose source is on the ignore
list. -/
def mediaIgn : MediaN :=
  { name := "Clip_01", source := some "Tournage", fonds := none,
    reference := none, comments := none, keywords := none,
    extension := "wav" }

/-- A second normalized media row named `Clip_01` (duplicate join key). -/
def mediaDup : MediaN :=
  { name := "Clip_01", source := some "4", fonds := none,
    reference := none, comments := none, keywords := none,
    extension := "mp4" }

/-- A normalized media row matching `Clip_02`. -/
def mediaB : MediaN :=
  { name := "Clip_02", source := some "7", fonds := none,
    reference := none, comments := none, keywords := none,
    extension := "mov" }

/-- A merged row whose record timecodes are inverted (out precedes in). -/
def badRow : MergedRow :=
  { name := some "Clip_03", sourceIn := "00:00:00:00",
    sourceOut := "00:00:01:00", recordIn := "01:00:02:00",
    recordOut := "01:00:00:00", v := "V1", source := some "5",
    fonds := none, reference := none, comments := none,
    keywords := none, extension := some "mov" }

/-! ## Theorems -/

/-- C2: after the merger's partitioning step, every row of the no-source
result set has a null `Source`, and no row of the primary result set has a
null `Source`, for every pair of input tables — also when the no-source
set is empty (in which case the primary set is the unfiltered table). -/
theorem no_source_partition (edit : List EditRow) (media : List MediaN) :
    (∀ r ∈ edlNoSource edit media, r.source = none) ∧
    (∀ r ∈ edlPrimary edit media, r.source ≠ none) := by
  constructor
  · intro r hr
    rw [edlNoSource, List.mem_filter] at hr
    simpa [Option.isNone_iff_eq_none] using hr.2
  · intro r hr
    rw [edlPrimary] at hr
    by_cases h : (edlNoSource edit media).isEmpty
    · rw [if_pos h] at hr
      have h0 : edlNoSource edit media = [] := by
        simpa [List.isEmpty_iff] using h
      intro hnone
      have : r ∈ edlNoSource edit media := by
        rw [edlNoSource]
        exact List.mem_filter.mpr ⟨hr, by simp [hnone]⟩
      simp [h0] at this
    · rw [if_neg h] at hr
      have := (List.mem_filter.mp hr).2
      simpa [Option.isSome_iff_ne_none] using this

/-- Witness for `no_source_partition`: a concrete unmatched edit event
lands in the no-source set with a null `Source`. -/
theorem no_source_partition_witness :
    mkUnmatched editB ∈ edlNoSource [editB] [] ∧
    (mkUnmatched editB).source = none :=
  ⟨by decide, (no_source_partition [editB] []).1 (mkUnmatched editB) (by decide)⟩

/-- C4 counterexample: with one edit event whose only matching media row
has an ignore-listed source (`Tournage`), the post-join filter drops the
row, so the union of the two partitions (both empty) is not a permutation
of the full left-join output (one row) — the claim as stated is false. -/
theorem partition_union_counterexample :
    ¬ (edlNoSource [editA] [mediaIgn] ++ edlPrimary [editA] [mediaIgn]).Perm
        (leftJoin [editA] [mediaIgn]) := by decide

/-- C4 amended: the union of the primary and no-source result sets equals
(as a multiset) the left-join output after marker/track exclusion *and
after the post-join source-ignore-list filter*; no row is lost or
duplicated between the partitions, and no row lies in both. -/
theorem partition_union (edit : List EditRow) (media : List MediaN) :
    (edlNoSource edit media ++ edlPrimary edit media).Perm
      (edlFiltered edit media)
    ∧ ∀ r ∈ edlNoSource edit media, r ∉ edlPrimary edit media := by
  constructor
  · rw [edlPrimary]
    by_cases h : (edlNoSource edit media).isEmpty
    · have h0 : edlNoSource edit media = [] := by
        simpa [List.isEmpty_iff] using h
      rw [if_pos h, h0, List.nil_append]
    · rw [if_neg h, edlNoSource]
      have heq : (edlFiltered edit media).filter (fun r => r.source.isSome) =
          (edlFiltered edit media).filter (fun r => ! r.source.isNone) :=
        List.filter_congr (fun a _ => by cases a.source <;> rfl)
      rw [heq]
      exact List.filter_append_perm _ _
  · intro r hr hrp
    have hn : r.source.isNone = true := by
      rw [edlNoSource, List.mem_filter] at hr
      exact hr.2
    rw [edlPrimary] at hrp
    by_cases h : (edlNoSource edit media).isEmpty
    · have h0 : edlNoSource edit media = [] := by
        simpa [List.isEmpty_iff] using h
      simp [h0] at hr
    · rw [if_neg h] at hrp
      have hs := (List.mem_filter.mp hrp).2
      cases hsrc : r.source <;> simp [hsrc] at hn hs

/-- Witness for `partition_union`: the concrete no-source row of an
unmatched edit event is not in the primary result set. -/
theorem partition_union_witness :
    mkUnmatched editB ∉ edlPrimary [editB] [] :=
  (partition_union [editB] []).2 (mkUnmatched editB) (by decide)

/-- C9 counterexample: the exported primary table's columns do not read
`..., Source, Reference, Fonds, ...` (the code renames in place, giving
`..., Source, Fonds, Reference, ...`), and the no-source file does not
have the same shape (it is captured before `Duration` and `Track` are
derived) — the claim as stated is false. -/
theorem export_columns_counterexample :
    ¬ (edlColumns = ["Name", "Source In", "Source Out", "Record In",
          "Record Out", "V", "Source", "Reference", "Fonds", "Comments",
          "Keywords", "Extension", "Duration", "Track"]
        ∧ noSourceColumns = edlColumns) := by decide

/-- C9 amended: the exported primary table has exactly the columns `Name,
Source In, Source Out, Record In, Record Out, V, Source, Fonds, Reference,
Comments, Keywords, Extension, Duration, Track` in that order; the
no-source file, emitted exactly when at least one row lacks a `Source`
value, has the same columns minus the final `Duration` and `Track`. -/
theorem export_columns :
    edlColumns = ["Name", "Source In", "Source Out", "Record In",
        "Record Out", "V", "Source", "Fonds", "Reference", "Comments",
        "Keywords", "Extension", "Duration", "Track"]
    ∧ noSourceColumns = edlColumns.dropLast.dropLast
    ∧ ∀ (edit : List EditRow) (media : List MediaN),
        noSourceFileWritten edit media = true ↔ edlNoSource edit media ≠ [] := by
  refine ⟨by decide, by decide, fun edit media => ?_⟩
  simp [noSourceFileWritten, List.isEmpty_iff]

/-- Witness for `export_columns`: on tables with one unmatched edit event
the no-source file is written. -/
theorem export_columns_witness :
    noSourceFileWritten [editB] [] = true :=
  (export_columns.2.2 [editB] []).mpr (by decide)

/-- C5: the edit-index normalizer drops exactly the rows whose `Name` is
null/empty (a null cell, since `read_csv` parses empty fields as `NaN`),
whose `Name` contains — case-sensitive substring match — an entry of the
marker exclusion list, or whose track is a member of the excluded-track
set; no excluded track starts with `A`, so audio tracks are never excluded
by the track rule; `Clip_01` on `V9` is dropped while `Clip_01` on `A1` is
retained; surviving rows keep their relative order (the result is a
sublist of the input). -/
theorem prepare_edit_spec :
    (∀ rows : List EditRow, prepare_edit rows = rows.filter
        (fun r => !(r.name.isNone || nameMatchesIgnored r.name ||
          EDIT_TRACKS_TO_EXCLUDE.contains r.v)))
    ∧ (∀ rows : List EditRow, (prepare_edit rows).Sublist rows)
    ∧ (∀ s : String, EDIT_TRACKS_TO_EXCLUDE.contains s = true →
        s.data.head? ≠ some 'A')
    ∧ prepare_edit [{ editA with v := "V9" }] = []
    ∧ prepare_edit [{ editA with v := "A1" }] = [{ editA with v := "A1" }] := by
  have hfilter : ∀ rows : List EditRow, prepare_edit rows = rows.filter
      (fun r => !(r.name.isNone || nameMatchesIgnored r.name ||
        EDIT_TRACKS_TO_EXCLUDE.contains r.v)) := by
    intro rows
    rw [prepare_edit, List.filter_filter, List.filter_filter]
    refine List.filter_congr (fun r _ => ?_)
    cases hn : r.name <;>
      cases hig : nameMatchesIgnored r.name <;>
      cases htr : EDIT_TRACKS_TO_EXCLUDE.contains r.v <;>
      simp [hn, hig, htr]
  refine ⟨hfilter, fun rows => ?_, fun s hs => ?_, by decide, by decide⟩
  · rw [hfilter]
    exact List.filter_sublist rows
  · have hmem : s ∈ EDIT_TRACKS_TO_EXCLUDE := by simpa using hs
    fin_cases hmem <;> decide

/-- Witness for `prepare_edit_spec`: `V9` is on the excluded-track list
and is not an audio track. -/
theorem prepare_edit_spec_witness :
    EDIT_TRACKS_TO_EXCLUDE.contains "V9" = true ∧
    "V9".data.head? ≠ some 'A' :=
  ⟨by decide, prepare_edit_spec.2.2.1 "V9" (by decide)⟩

/-- C6: the merger is a relational left outer join keyed on exact
case-sensitive equality of `Name`: the output has one row per matching
(edit, media) pair and one all-null-media row per unmatched edit event
(so every edit event yields at least one row, a `k`-fold match fans out to
exactly `k` rows, and every matching combination appears). -/
theorem left_join_spec (edit : List EditRow) (media : List MediaN) :
    (leftJoin edit media).length =
      (edit.map (fun e => max 1 (joinMatches media e).length)).sum
    ∧ edit.length ≤ (leftJoin edit media).length
    ∧ (∀ e ∈ edit, joinMatches media e = [] →
        mkUnmatched e ∈ leftJoin edit media)
    ∧ (∀ e ∈ edit, ∀ m ∈ media, e.name = some m.name →
        mkMatched e m ∈ leftJoin edit media)
    ∧ (∀ e : EditRow, (mkUnmatched e).source = none ∧
        (mkUnmatched e).fonds = none ∧ (mkUnmatched e).reference = none ∧
        (mkUnmatched e).comments = none ∧ (mkUnmatched e).keywords = none ∧
        (mkUnmatched e).extension = none) := by
  have hlen : (leftJoin edit media).length =
      (edit.map (fun e => max 1 (joinMatches media e).length)).sum := by
    induction edit with
    | nil => rfl
    | cons e t ih =>
      simp only [leftJoin, List.flatMap_cons, List.length_append,
        List.map_cons, List.sum_cons] at ih ⊢
      cases h : joinMatches media e with
      | nil => simp [h, ih]
      | cons m ms =>
        have hmax : max 1 (ms.length + 1) = ms.length + 1 := by omega
        simp [h, ih, hmax]
  refine ⟨hlen, ?_, fun e he h => ?_, fun e he m hm hname => ?_,
    fun e => ⟨rfl, rfl, rfl, rfl, rfl, rfl⟩⟩
  · rw [hlen]
    have h1 : ∀ t : List EditRow, t.length = (t.map (fun _ => (1 : Nat))).sum := by
      intro t
      induction t with
      | nil => rfl
      | cons a t ih =>
        simp only [List.length_cons, List.map_cons, List.sum_cons, ih]
        omega
    rw [h1 edit]
    apply List.sum_le_sum
    intro e _
    simp
  · rw [leftJoin]
    refine List.mem_flatMap.mpr ⟨e, he, ?_⟩
    simp [h]
  · rw [leftJoin]
    refine List.mem_flatMap.mpr ⟨e, he, ?_⟩
    have hm' : m ∈ joinMatches media e :=
      List.mem_filter.mpr ⟨hm, by simp [hname]⟩
    cases h2 : joinMatches media e with
    | nil => rw [h2] at hm'; cases hm'
    | cons a as =>
      simp only [h2] at hm' ⊢
      exact List.mem_map_of_mem _ hm'

/-- Witness for `left_join_spec`: with two media rows sharing the name
`Clip_01`, the single matching edit event fans out to both pairs, and an
unmatched event yields its all-null row. -/
theorem left_join_spec_witness :
    mkMatched editA mediaDup ∈ leftJoin [editA] [mediaIgn, mediaDup] ∧
    mkUnmatched editB ∈ leftJoin [editB] [mediaIgn, mediaDup] :=
  ⟨(left_join_spec [editA] [mediaIgn, mediaDup]).2.2.2.1 editA (by decide)
      mediaDup (by decide) (by decide),
   (left_join_spec [editB] [mediaIgn, mediaDup]).2.2.1 editB (by decide)
      (by decide)⟩

/-- Helper: the boolean fold threading the duration flag equals `any`. -/
theorem foldl_or_eq (f : MergedRow → Bool) (b : Bool) (l : List MergedRow) :
    l.foldl (fun fl r => fl || f r) b = (b || l.any f) := by
  induction l generalizing b with
  | nil => simp
  | cons r t ih => simp [List.foldl_cons, ih, Bool.or_assoc]

/-- Helper: a successful row-wise enrichment preserves the row count and
gives every input row an output row carrying it, with the `Duration`
value of `get_tc_delta`. -/
theorem mapM_enrich_some {fps : Nat} :
    ∀ {rows : List MergedRow} {l : List EdlRow},
    rows.mapM (enrich fps) = some l →
    l.length = rows.length ∧
      ∀ r ∈ rows, ∃ p ∈ l, p.row = r ∧
        p.duration = (get_tc_delta fps r.recordIn r.recordOut).1 := by
  intro rows
  induction rows with
  | nil =>
    intro l h
    simp only [List.mapM_nil, pure, Option.some.injEq] at h
    subst h
    exact ⟨rfl, by simp⟩
  | cons r t ih =>
    intro l h
    rw [List.mapM_cons] at h
    cases he : enrich fps r with
    | none => rw [he] at h; simp at h
    | some p =>
      rw [he] at h
      cases ht : t.mapM (enrich fps) with
      | none => rw [ht] at h; simp at h
      | some xs =>
        rw [ht] at h
        simp only [Option.bind_eq_bind, Option.some_bind, pure,
          Option.some.injEq] at h
        subst h
        obtain ⟨hlen, hmem⟩ := ih ht
        have hpr : p.row = r ∧
            p.duration = (get_tc_delta fps r.recordIn r.recordOut).1 := by
          rw [enrich] at he
          cases htk : trackKind r.v with
          | none => rw [htk] at he; simp at he
          | some tk =>
            rw [htk] at he
            simp only [Option.map_some'] at he
            cases he
            exact ⟨rfl, rfl⟩
        refine ⟨by simp [hlen], fun r' hr' => ?_⟩
        rcases List.mem_cons.mp hr' with rfl | hr''
        · exact ⟨p, List.mem_cons_self _ _, hpr.1, hpr.2⟩
        · obtain ⟨q, hq, hq1, hq2⟩ := hmem r' hr''
          exact ⟨q, List.mem_cons_of_mem _ hq, hq1, hq2⟩

/-- C1: for every merged row whose timecode pair cannot be subtracted
(`record_out` precedes `record_in`, or a timecode is malformed), the
computed `Duration` is `0`, the run-level warning flag is set, and the row
remains in the output of the (total, never-aborting) duration step with
all other rows still processed. -/
theorem tc_error_recovery (fps : Nat) (rows : List MergedRow)
    (r : MergedRow) (hr : r ∈ rows)
    (hbad : subtractable fps r.recordIn r.recordOut = false) :
    get_tc_delta fps r.recordIn r.recordOut = (0, true)
    ∧ durationFlag fps rows = true
    ∧ ∀ l, rows.mapM (enrich fps) = some l →
        l.length = rows.length ∧ ∃ p ∈ l, p.row = r ∧ p.duration = 0 := by
  have hdelta : get_tc_delta fps r.recordIn r.recordOut = (0, true) := by
    rw [subtractable] at hbad
    rw [get_tc_delta]
    cases h1 : parseTC fps r.recordIn <;>
      cases h2 : parseTC fps r.recordOut <;>
      simp_all
  refine ⟨hdelta, ?_, fun l hl => ?_⟩
  · rw [durationFlag, foldl_or_eq]
    simp only [Bool.false_or, List.any_eq_true]
    exact ⟨r, hr, by rw [hdelta]⟩
  · obtain ⟨hlen, hmem⟩ := mapM_enrich_some hl
    obtain ⟨p, hp, hrow, hdur⟩ := hmem r hr
    exact ⟨hlen, p, hp, hrow, by rw [hdur, hdelta]⟩

/-- Witness for `tc_error_recovery`: a concrete row with inverted record
timecodes gets duration `0` and raises the run flag. -/
theorem tc_error_recovery_witness :
    get_tc_delta 25 badRow.recordIn badRow.recordOut = (0, true) ∧
    durationFlag 25 [badRow] = true :=
  ⟨(tc_error_recovery 25 [badRow] badRow (by decide) (by decide)).1,
   (tc_error_recovery 25 [badRow] badRow (by decide) (by decide)).2.1⟩

/-- C3: for every merged row with well-formed timecodes satisfying
`record_out ≥ record_in`, the computed `Duration` is exactly the
frame-count difference `record_out − record_in` at the configured frame
rate (and the fallback flag is untouched); in particular `01:00:00:00` to
`01:00:02:00` at 25 fps yields 50 frames, and the spec's worked scenario
(`Clip_01.mov`, take 3, scene 12) produces the expected merged row. -/
theorem duration_exact :
    (∀ (fps : Nat) (ri ro : String) (a b : Nat),
        parseTC fps ri = some a → parseTC fps ro = some b → a ≤ b →
        get_tc_delta fps ri ro = (b - a, false))
    ∧ (get_tc_delta 25 "01:00:00:00" "01:00:02:00").1 = 50
    ∧ finalEDL 25 [editA] (prepare_media [mediaA]) = some
        [⟨{ name := some "Clip_01", sourceIn := "00:00:00:00",
            sourceOut := "00:00:02:00", recordIn := "01:00:00:00",
            recordOut := "01:00:02:00", v := "V1", source := some "3",
            fonds := none, reference := some "12", comments := none,
            keywords := none, extension := some "mov" }, 50, ""⟩] := by
  refine ⟨fun fps ri ro a b ha hb hle => ?_, by decide, by decide⟩
  rw [get_tc_delta, ha, hb]
  simp [hle]

/-- Witness for `duration_exact`: the concrete 2-second pair at 25 fps. -/
theorem duration_exact_witness :
    get_tc_delta 25 "01:00:00:00" "01:00:02:00" = (90050 - 90000, false) :=
  duration_exact.1 25 "01:00:00:00" "01:00:02:00" 90000 90050
    (by decide) (by decide) (by decide)

/-- C10: under the precondition that every row has a non-empty track
string, the `Track` derivation is total — the whole enrichment step
succeeds — and yields `AUDIO` exactly when the first character of the
track is `A`, the empty string otherwise; without the precondition the
error branch is reachable: on an empty track `trackKind` is `none`. -/
theorem track_total :
    (∀ (fps : Nat) (rows : List MergedRow), (∀ r ∈ rows, r.v ≠ "") →
      ∃ l, rows.mapM (enrich fps) = some l ∧
        ∀ p ∈ l, p.track =
          if p.row.v.data.head? = some 'A' then "AUDIO" else "")
    ∧ trackKind "" = none := by
  refine ⟨fun fps rows h => ?_, rfl⟩
  induction rows with
  | nil => exact ⟨[], rfl, by simp⟩
  | cons r t ih =>
    have hv : r.v ≠ "" := h r (List.mem_cons_self _ _)
    have hd : r.v.data ≠ [] := by
      intro hh
      exact hv (String.ext (hh.trans rfl))
    obtain ⟨c, cs, hc⟩ := List.exists_cons_of_ne_nil hd
    have htk : trackKind r.v = some (if c = 'A' then "AUDIO" else "") := by
      rw [trackKind, hc]
    obtain ⟨l, hl, hprop⟩ := ih (fun x hx => h x (List.mem_cons_of_mem _ hx))
    refine ⟨⟨r, (get_tc_delta fps r.recordIn r.recordOut).1,
        if c = 'A' then "AUDIO" else ""⟩ :: l, ?_, ?_⟩
    · rw [List.mapM_cons, enrich, htk, hl]
      rfl
    · intro p hp
      rcases List.mem_cons.mp hp with rfl | hp'
      · simp [hc]
      · exact hprop p hp'

/-- Witness for `track_total`: concrete rows on tracks `A1` and `V1` are
all enriched, with `Track` read off the first character. -/
theorem track_total_witness :
    ∃ l, [{ badRow with v := "A1" }, { badRow with v := "V1" }].mapM
        (enrich 25) = some l ∧
      ∀ p ∈ l, p.track =
        if p.row.v.data.head? = some 'A' then "AUDIO" else "" :=
  track_total.1 25 [{ badRow with v := "A1" }, { badRow with v := "V1" }]
    (by decide)

/-- Helper: the first element surviving `dropWhile` fails the predicate. -/
theorem head_dropWhile_false {p : Char → Bool} :
    ∀ {l : List Char} {a : Char} {as : List Char},
      l.dropWhile p = a :: as → p a = false := by
  intro l
  induction l with
  | nil => intro a as h; simp [List.dropWhile] at h
  | cons b t ih =>
    intro a as h
    rw [List.dropWhile_cons] at h
    by_cases hb : p b
    · rw [if_pos hb] at h
      exact ih h
    · rw [if_neg hb] at h
      cases h
      simpa using hb

/-- Helper: `splitext` either leaves the input untouched with an empty
extension, or splits it at the last dot: the second component is that dot
followed by the (dot-free) trailing run, and the original string is the
concatenation of both components. -/
theorem splitext_eq (x : String) :
    splitext x = (x, "") ∨
    ∃ baseRev : List Char,
      splitext x = (String.mk baseRev.reverse,
        String.mk ('.' ::
          (x.data.reverse.takeWhile (fun c => c ≠ '.')).reverse)) ∧
      x.data = baseRev.reverse ++
        ('.' :: (x.data.reverse.takeWhile (fun c => c ≠ '.')).reverse) := by
  cases h2 : x.data.reverse.dropWhile (fun c => c ≠ '.') with
  | nil => left; simp only [splitext, h2]
  | cons c baseRev =>
    have hc : c = '.' := by simpa using head_dropWhile_false h2
    subst hc
    by_cases h1 :
        ((x.data.reverse.takeWhile (fun c => c ≠ '.')).contains '/') = true
    · left
      simp only [splitext, h2]
      rw [if_pos h1]
    · by_cases h3 :
          ((baseRev.takeWhile (fun c => c ≠ '/')).all (fun c => c = '.')) = true
      · left
        simp only [splitext, h2]
        rw [if_neg h1, if_pos h3]
      · right
        refine ⟨baseRev, ?_, ?_⟩
        · simp only [splitext, h2]
          rw [if_neg h1, if_neg h3]
        · have hsplit := List.takeWhile_append_dropWhile
            (fun c => decide (c ≠ '.')) x.data.reverse
          rw [h2] at hsplit
          have hrev := congrArg List.reverse hsplit
          simpa [List.reverse_append, List.append_assoc] using hrev.symm

/-- C8: the media normalizer splits a file name at its last path
extension: the name concatenated with the raw extension restores the
original string; the raw extension is either empty or a single dot
followed by the dot-free exported `Extension`; an empty raw extension
leaves `Name` unchanged and `Extension` empty; and a file name with no
dot at all has empty `Extension` and unchanged `Name` (no error). -/
theorem splitext_spec :
    (∀ x : String, (splitext x).1 ++ (splitext x).2 = x)
    ∧ (∀ x : String, (splitext x).2 = "" ∨ ∃ e : String,
        (splitext x).2 = "." ++ e ∧ (∀ c ∈ e.data, c ≠ '.') ∧
        mediaExtension x = e)
    ∧ (∀ x : String, (splitext x).2 = "" →
        mediaName x = x ∧ mediaExtension x = "")
    ∧ (∀ x : String, '.' ∉ x.data →
        mediaExtension x = "" ∧ mediaName x = x) := by
  have happend : ∀ s : String, s ++ "" = s := by
    intro s
    cases s with
    | mk d => show String.mk (d ++ []) = String.mk d; rw [List.append_nil]
  refine ⟨fun x => ?_, fun x => ?_, fun x hx => ?_, fun x hx => ?_⟩
  · rcases splitext_eq x with h | ⟨baseRev, h, hdat⟩
    · rw [h]; exact happend x
    · rw [h]
      exact String.ext hdat.symm
  · rcases splitext_eq x with h | ⟨baseRev, h, hdat⟩
    · left; rw [h]
    · right
      refine ⟨String.mk
        (x.data.reverse.takeWhile (fun c => c ≠ '.')).reverse, ?_, ?_, ?_⟩
      · rw [h]
        apply String.ext
        simp
      · intro a ha
        have ha2 := List.mem_reverse.mp ha
        have := List.mem_takeWhile_imp ha2
        simpa using this
      · rw [mediaExtension, h]
        show String.mk (List.filter _ ('.' :: _)) = _
        congr 1
        rw [List.filter_cons]
        simp only [ne_eq, decide_not, decide_True, Bool.not_true,
          Bool.false_eq_true, if_false]
        rw [List.filter_eq_self.mpr]
        intro a ha
        have ha2 := List.mem_reverse.mp ha
        have := List.mem_takeWhile_imp ha2
        simpa using this
  · rcases splitext_eq x with h | ⟨baseRev, h, hdat⟩
    · constructor
      · rw [mediaName, h]
      · rw [mediaExtension, hx]
        rfl
    · exfalso
      rw [h] at hx
      exact absurd (congrArg String.data hx) (by simp)
  · have hempty : (splitext x).2 = "" := by
      rcases splitext_eq x with h | ⟨baseRev, h, hdat⟩
      · rw [h]
      · exfalso
        have : '.' ∈ x.data := by
          rw [hdat]
          exact List.mem_append_right _ (List.mem_cons_self _ _)
        exact hx this
    refine ⟨by rw [mediaExtension, hempty]; rfl, ?_⟩
    rcases splitext_eq x with h | ⟨baseRev, h, hdat⟩
    · rw [mediaName, h]
    · exfalso
      rw [h] at hempty
      exact absurd (congrArg String.data hempty) (by simp)

/-- Witness for `splitext_spec`: a file name with no dot keeps its name
and gets an empty extension. -/
theorem splitext_spec_witness :
    mediaExtension "noext" = "" ∧ mediaName "noext" = "noext" :=
  splitext_spec.2.2.2 "noext" (by decide)

/-- Helper: digit characters are ordered like their values. -/
theorem dChar_lt {a b : Nat} (ha : a < 10) (hb : b < 10) (h : a < b) :
    dChar a < dChar b := by
  interval_cases a <;> interval_cases b <;> revert h <;> decide

/-- Helper: digit characters satisfy `isDigit`. -/
theorem dChar_isDigit {n : Nat} (h : n < 10) : (dChar n).isDigit = true := by
  interval_cases n <;> decide

/-- Helper: `digitVal` inverts `dChar`. -/
theorem digitVal_dChar {n : Nat} (h : n < 10) : digitVal (dChar n) = n := by
  interval_cases n <;> decide

/-- Helper: the parser recovers the frame count of a rendered timecode. -/
theorem parseTC_tcRender (fps hh mm ss ff : Nat) (hhh : hh < 100)
    (hmm : mm < 100) (hss : ss < 100) (hff : ff < 100) :
    parseTC fps (tcRender hh mm ss ff) =
      some (((hh * 60 + mm) * 60 + ss) * fps + ff) := by
  rw [parseTC]
  show parseTCList fps
    [dChar (hh / 10), dChar (hh % 10), ':',
     dChar (mm / 10), dChar (mm % 10), ':',
     dChar (ss / 10), dChar (ss % 10), ':',
     dChar (ff / 10), dChar (ff % 10)] = _
  rw [parseTCList]
  rw [if_pos ⟨rfl, rfl, rfl,
    dChar_isDigit (by omega), dChar_isDigit (by omega),
    dChar_isDigit (by omega), dChar_isDigit (by omega),
    dChar_isDigit (by omega), dChar_isDigit (by omega),
    dChar_isDigit (by omega), dChar_isDigit (by omega)⟩]
  rw [digitVal_dChar (by omega), digitVal_dChar (by omega),
    digitVal_dChar (by omega), digitVal_dChar (by omega),
    digitVal_dChar (by omega), digitVal_dChar (by omega),
    digitVal_dChar (by omega), digitVal_dChar (by omega)]
  have e1 : 10 * (hh / 10) + hh % 10 = hh := by omega
  have e2 : 10 * (mm / 10) + mm % 10 = mm := by omega
  have e3 : 10 * (ss / 10) + ss % 10 = ss := by omega
  have e4 : 10 * (ff / 10) + ff % 10 = ff := by omega
  rw [e1, e2, e3, e4]

/-- Helper: mixed-radix strict monotonicity of one digit position. -/
theorem mixed_lt {r a1 a2 x1 x2 : Nat} (hx1 : x1 < r) (ha : a1 < a2) :
    a1 * r + x1 < a2 * r + x2 := by
  calc a1 * r + x1 < a1 * r + r := by omega
    _ = (a1 + 1) * r := by ring
    _ ≤ a2 * r := Nat.mul_le_mul_right r ha
    _ ≤ a2 * r + x2 := Nat.le_add_right _ _

/-- Helper: strict monotonicity of the frame count in the timecode
tuple's lexicographic order, given in-range components. -/
theorem framesLt {fps hh1 mm1 ss1 ff1 hh2 mm2 ss2 ff2 : Nat}
    (hmm1 : mm1 < 60) (hss1 : ss1 < 60) (hff1 : ff1 < fps)
    (hlex : hh1 < hh2 ∨ hh1 = hh2 ∧ (mm1 < mm2 ∨ mm1 = mm2 ∧
      (ss1 < ss2 ∨ ss1 = ss2 ∧ ff1 < ff2))) :
    ((hh1 * 60 + mm1) * 60 + ss1) * fps + ff1 <
      ((hh2 * 60 + mm2) * 60 + ss2) * fps + ff2 := by
  rcases hlex with h | ⟨rfl, h | ⟨rfl, h | ⟨rfl, h⟩⟩⟩
  · exact mixed_lt hff1 (by omega)
  · exact mixed_lt hff1 (by omega)
  · exact mixed_lt hff1 (by omega)
  · exact Nat.add_lt_add_left h _

/-- Helper: a strict frame-count inequality forces the timecode tuples to
be lexicographically ordered. -/
theorem framesLt_to_lex {fps hh1 mm1 ss1 ff1 hh2 mm2 ss2 ff2 : Nat}
    (_hmm1 : mm1 < 60) (_hss1 : ss1 < 60) (_hff1 : ff1 < fps)
    (hmm2 : mm2 < 60) (hss2 : ss2 < 60) (hff2 : ff2 < fps)
    (h : ((hh1 * 60 + mm1) * 60 + ss1) * fps + ff1 <
      ((hh2 * 60 + mm2) * 60 + ss2) * fps + ff2) :
    hh1 < hh2 ∨ hh1 = hh2 ∧ (mm1 < mm2 ∨ mm1 = mm2 ∧
      (ss1 < ss2 ∨ ss1 = ss2 ∧ ff1 < ff2)) := by
  rcases Nat.lt_trichotomy hh1 hh2 with h1 | h1 | h1
  · exact Or.inl h1
  · subst h1
    rcases Nat.lt_trichotomy mm1 mm2 with h2 | h2 | h2
    · exact Or.inr ⟨rfl, Or.inl h2⟩
    · subst h2
      rcases Nat.lt_trichotomy ss1 ss2 with h3 | h3 | h3
      · exact Or.inr ⟨rfl, Or.inr ⟨rfl, Or.inl h3⟩⟩
      · subst h3
        rcases Nat.lt_trichotomy ff1 ff2 with h4 | h4 | h4
        · exact Or.inr ⟨rfl, Or.inr ⟨rfl, Or.inr ⟨rfl, h4⟩⟩⟩
        · subst h4; exact absurd h (lt_irrefl _)
        · exact absurd h (not_lt.mpr (by omega))
      · exact absurd (framesLt hmm2 hss2 hff2
          (Or.inr ⟨rfl, Or.inr ⟨rfl, Or.inl h3⟩⟩)) (not_lt.mpr (le_of_lt h))
    · exact absurd (framesLt hmm2 hss2 hff2 (Or.inr ⟨rfl, Or.inl h2⟩))
        (not_lt.mpr (le_of_lt h))
  · exact absurd (framesLt hmm2 hss2 hff2 (Or.inl h1))
      (not_lt.mpr (le_of_lt h))

/-- Helper: a two-digit zero-padded block is lexicographic: a smaller value
gives a smaller character pair whatever follows. -/
theorem lex_two {a b : Nat} (ha : a < 100) (hb : b < 100) (h : a < b)
    (r1 r2 : List Char) :
    List.Lex (· < ·) (dChar (a / 10) :: dChar (a % 10) :: r1)
      (dChar (b / 10) :: dChar (b % 10) :: r2) := by
  rcases Nat.lt_or_ge (a / 10) (b / 10) with h1 | h1
  · exact List.Lex.rel (dChar_lt (by omega) (by omega) h1)
  · have h10 : a / 10 = b / 10 := by omega
    have h2 : a % 10 < b % 10 := by omega
    rw [h10]
    exact List.Lex.cons (List.Lex.rel (dChar_lt (by omega) (by omega) h2))

/-- Helper: lexicographic order on timecode tuples transfers to
lexicographic order on their zero-padded renderings. -/
theorem tcRender_lex {hh1 mm1 ss1 ff1 hh2 mm2 ss2 ff2 : Nat}
    (hh1b : hh1 < 100) (hmm1b : mm1 < 100) (hss1b : ss1 < 100)
    (hff1b : ff1 < 100) (hh2b : hh2 < 100) (hmm2b : mm2 < 100)
    (hss2b : ss2 < 100) (hff2b : ff2 < 100)
    (hlex : hh1 < hh2 ∨ hh1 = hh2 ∧ (mm1 < mm2 ∨ mm1 = mm2 ∧
      (ss1 < ss2 ∨ ss1 = ss2 ∧ ff1 < ff2))) :
    List.Lex (· < ·) (tcRender hh1 mm1 ss1 ff1).data
      (tcRender hh2 mm2 ss2 ff2).data := by
  show List.Lex (· < ·)
    (dChar (hh1 / 10) :: dChar (hh1 % 10) :: ':' ::
     dChar (mm1 / 10) :: dChar (mm1 % 10) :: ':' ::
     dChar (ss1 / 10) :: dChar (ss1 % 10) :: ':' ::
     dChar (ff1 / 10) :: [dChar (ff1 % 10)])
    (dChar (hh2 / 10) :: dChar (hh2 % 10) :: ':' ::
     dChar (mm2 / 10) :: dChar (mm2 % 10) :: ':' ::
     dChar (ss2 / 10) :: dChar (ss2 % 10) :: ':' ::
     dChar (ff2 / 10) :: [dChar (ff2 % 10)])
  rcases hlex with h | ⟨rfl, h | ⟨rfl, h | ⟨rfl, h⟩⟩⟩
  · exact lex_two hh1b hh2b h _ _
  · exact .cons (.cons (.cons (lex_two hmm1b hmm2b h _ _)))
  · exact .cons (.cons (.cons (.cons (.cons (.cons
      (lex_two hss1b hss2b h _ _))))))
  · exact .cons (.cons (.cons (.cons (.cons (.cons (.cons (.cons (.cons
      (lex_two hff1b hff2b h [] [])))))))))

/-- Helper: on well-formed fixed-width zero-padded timecodes, the
lexicographic string order agrees with the order of parsed frame
counts. -/
theorem wf_le_frames {fps : Nat} {s t : String} (hs : wfTC fps s)
    (ht : wfTC fps t) (hle : s ≤ t) :
    framesOf fps s ≤ framesOf fps t := by
  obtain ⟨hh1, mm1, ss1, ff1, hb1, hb2, hb3, hb4, hb5, rfl⟩ := hs
  obtain ⟨hh2, mm2, ss2, ff2, hc1, hc2, hc3, hc4, hc5, rfl⟩ := ht
  rw [framesOf, framesOf,
    parseTC_tcRender fps hh1 mm1 ss1 ff1 hb1 (by omega) (by omega) hb5,
    parseTC_tcRender fps hh2 mm2 ss2 ff2 hc1 (by omega) (by omega) hc5,
    Option.getD_some, Option.getD_some]
  by_contra hlt
  push_neg at hlt
  have htuple := framesLt_to_lex hc2 hc3 hc4 hb2 hb3 hb4 hlt
  have hlex := tcRender_lex hc1 (by omega) (by omega) hc5 hb1 (by omega)
    (by omega) hb5 htuple
  have hslt : tcRender hh2 mm2 ss2 ff2 < tcRender hh1 mm1 ss1 ff1 :=
    String.lt_iff_toList_lt.mpr hlex
  exact absurd hslt (not_lt.mpr hle)

/-- C7: for every pair of input tables the exported primary table is
sorted non-decreasing by `Record In` (lexicographically on the timecode
strings, as the code sorts the string column), independent of input row
order; and whenever every `Record In` is a well-formed fixed-width
zero-padded timecode, it is thereby also sorted by the parsed frame count
of `Record In`. -/
theorem record_in_sorted (fps : Nat) (edit : List EditRow)
    (media : List MediaN) (l : List EdlRow)
    (hl : finalEDL fps edit media = some l) :
    l.Pairwise recordInLE
    ∧ ((∀ p ∈ l, wfTC fps p.row.recordIn) →
        l.Pairwise (fun a b =>
          framesOf fps a.row.recordIn ≤ framesOf fps b.row.recordIn)) := by
  rw [finalEDL] at hl
  cases hm : (edlPrimary edit media).mapM (enrich fps) with
  | none => rw [hm] at hl; simp at hl
  | some l0 =>
    rw [hm] at hl
    simp only [Option.map_some', Option.some.injEq] at hl
    subst hl
    have hsorted : (List.insertionSort recordInLE l0).Pairwise recordInLE :=
      List.sorted_insertionSort recordInLE l0
    refine ⟨hsorted, fun hwf => ?_⟩
    refine hsorted.imp_of_mem ?_
    intro a b ha hb hr
    exact wf_le_frames (hwf a ha) (hwf b hb) hr

/-- Witness for `record_in_sorted`: a concrete two-row run, given to the
pipeline in reverse timeline order, comes out sorted by the parsed frame
counts of `Record In`. -/
theorem record_in_sorted_witness :
    ([⟨mkMatched editA mediaDup, 50, ""⟩,
      ⟨mkMatched editB mediaB, 25, "AUDIO"⟩] : List EdlRow).Pairwise
      (fun a b => framesOf 25 a.row.recordIn ≤ framesOf 25 b.row.recordIn) := by
  refine (record_in_sorted 25 [editB, editA] [mediaB, mediaDup] _
    (by decide)).2 ?_
  intro p hp
  simp only [List.mem_cons, List.not_mem_nil, or_false] at hp
  rcases hp with rfl | rfl
  · exact ⟨1, 0, 0, 0, by omega, by omega, by omega, by omega, by omega,
      by decide⟩
  · exact ⟨1, 0, 5, 0, by omega, by omega, by omega, by omega, by omega,
      by decide⟩

end ResolveEDL
